import Mathlib

/-!
Shallow embedding of `src/tortto/autograd/grad_fcn_misc.py` (PyTortto).

Arrays are modelled in two layers.

* Value level: a `V` is a shape (list of dimension sizes) together with the
  flattened, row-major contents of the array.

* Object level: a `Tsr` models one `nparray`/`cparray` object.  Its contents
  live in a `Heap` (a list of flat buffers) under `storage`; `ix` maps the
  tensor's flat (row-major) index to an offset in that buffer, which is how
  numpy views (`as_strided`, basic slicing) are represented: a view shares the
  `storage` id of its base and composes `ix`.  Two tensors alias exactly when
  they have the same `storage`.  In-place numpy writes (`a[key] = v`) mutate
  the heap buffer, so every alias observes them — this is what the backward
  methods of `MaskedFill`, `CopySlices` and `Copy` rely on / suffer from.

The `backend` flag stands for the two device array backends: `false` is the
host backend (numpy), `true` the accelerator backend (cupy).  `version` is the
tensor's `_version` counter.  Machine dtypes are modelled as `Int` (dtype
bookkeeping such as `dtype=xt0.dtype` has no observable effect at this level).
Out-of-range reads use a default of `0`; all theorems state the side
conditions under which the embedded code only performs in-range accesses.
-/

/-- Flattened row-major contents of an array together with its shape. -/
structure V where
  shape : List Nat
  data : List Int
  deriving DecidableEq, Repr

/-- Number of elements of an array of the given shape. -/
def numel (s : List Nat) : Nat := s.prod

/-- One array object: a buffer id, a shape, the index map from the array's
flat row-major index into its buffer, the device backend and the version
counter.  `outIdx` is the `_output_idx` recorded by `build_links`. -/
structure Tsr where
  storage : Nat
  shape : List Nat
  ix : Nat → Nat
  backend : Bool
  version : Nat
  outIdx : Nat

/-- The store of array buffers, indexed by `Tsr.storage`. -/
abbrev Heap := List (List Int)

/-- The buffer a tensor reads and writes. -/
def bufOf (h : Heap) (t : Tsr) : List Int := h.getD t.storage []

/-- The value (flattened row-major contents) of a tensor in a heap. -/
def val (h : Heap) (t : Tsr) : List Int :=
  (List.range (numel t.shape)).map (fun i => (bufOf h t).getD (t.ix i) 0)

/-- In-place write of the constant `v` at the listed buffer offsets of
storage cell `sid` (the numpy assignment `a[key] = v` on the buffer level). -/
def writeConst (h : Heap) (sid : Nat) (poss : List Nat) (v : Int) : Heap :=
  h.set sid ((h.getD sid []).mapIdx (fun i x => if poss.contains i then v else x))

/-- Modelled from the spec: the Link Builder (`build_links`, from the repo's
`autograd/helper.py`, not under `src/`) "constructs a tensor wrapper that
records its producing node and an output index"; the produced wrapper starts
with a fresh version counter (spec 4.3: a view "must inherit the input's
version counter … rather than start a fresh one", which Expand then enforces
by explicit assignment).  Here it wraps a fresh contiguous buffer. -/
def build_links (sid : Nat) (shape : List Nat) (backend : Bool) (oi : Nat) : Tsr :=
  { storage := sid, shape := shape, ix := fun i => i, backend := backend,
    version := 0, outIdx := oi }

/-- Modelled from the spec: the Mutation Guard's `inplace_update` (repo's
`autograd/helper.py`, not under `src/`) "bump[s] its version counter after
mutation" and returns the mutated tensor. -/
def inplace_update (t : Tsr) : Tsr := { t with version := t.version + 1 }

/-- Python-style list indexing with negative indices, `s[d]`. -/
def pyGet (s : List Nat) (d : Int) : Nat :=
  s.getD (if d < 0 then d + s.length else d).toNat 0

/-- Python/numpy dimension normalization: a negative axis counts from the
trailing end. -/
def normDim (nd : Nat) (d : Int) : Nat := (if d < 0 then d + nd else d).toNat

/-- Whether an `Except` is a success. -/
def isOkE {ε α : Type} : Except ε α → Bool
  | .ok _ => true
  | .error _ => false

/-! ## Copy (lines 199-235)

Only `Copy.backward` is claimed about (C1, C10); `Copy.forward` contributes
the recorded coercion direction `flag`, which backward receives through
`ctx.params['flag']` and which is passed here as an argument:
`flag = some true` means forward coerced host→accelerator (backward must
`.get()` back to host), `flag = some false` the reverse, `flag = none` means
both inputs were on the same backend. -/

/-- Embeds `Copy.backward` (grad_fcn_misc.py lines 221-235).  The value
gradient `grad1` is computed first; with `flag = none` it is the very same
object as `gd0` (no copy is made), while `.get()` / `cp.array(...)` allocate
a fresh buffer holding the current contents.  Then, if the gradient for the
destination is needed, `grad0 = gd0` and `grad0[...] = 0` zeroes every
element of `gd0`'s buffer in place. -/
def Copy.backward (h : Heap) (flag : Option Bool) (needs0 needs1 : Bool) (gd0 : Tsr) :
    (Option Tsr × Option Tsr) × Heap :=
  let state1 : Option Tsr × Heap :=
    if needs1 then
      match flag with
      | some true => (some ⟨h.length, gd0.shape, fun i => i, false, 0, 0⟩, h ++ [val h gd0])
      | some false => (some ⟨h.length, gd0.shape, fun i => i, true, 0, 0⟩, h ++ [val h gd0])
      | none => (some gd0, h)
    else (none, h)
  let grad1 := state1.1
  let h1 := state1.2
  if needs0 then
    ((some gd0, grad1), writeConst h1 gd0.storage ((List.range (numel gd0.shape)).map gd0.ix) 0)
  else ((none, grad1), h1)

/-! ## Concrete fixtures used by closed theorems and witnesses. -/

/-- A contiguous host tensor of shape `[2]` living in storage cell 0. -/
def g2 : Tsr := ⟨0, [2], fun i => i, false, 0, 0⟩

/-- C1 (code_bug): with no backend coercion recorded (`flag = none`) and both
input gradients requested, `Copy.backward` sets `grad1 = gd0` without copying
and then zeroes `gd0` in place, so the returned source gradient is the
all-zero buffer, not the upstream gradient `G` — contradicting the claim
that the source gradient equals `G` unchanged.  Here `G = [1, 2]`: the
returned source gradient is the same object as `G` and its contents after
backward are `[0, 0] ≠ [1, 2]`; the destination gradient is the zero array
of `G`'s shape, as claimed. -/
theorem Copy_backward_zeroes_source_grad :
    (Copy.backward [[1, 2]] none true true g2).1.2 = some g2 ∧
    (Copy.backward [[1, 2]] none true true g2).1.1 = some g2 ∧
    val (Copy.backward [[1, 2]] none true true g2).2 g2 = [0, 0] ∧
    val [[1, 2]] g2 = [1, 2] ∧
    ([0, 0] : List Int) ≠ [1, 2] := by
  refine ⟨rfl, rfl, rfl, rfl, by decide⟩

/-! ## Multi-index machinery for axis sums (numpy `sum(axes, keepdims=True)`)

Row-major multi-index arithmetic over shapes represented as `List Nat`. -/

/-- Row-major digits of a flat index for the given shape. -/
def toMulti : List Nat → Nat → List Nat
  | [], _ => []
  | _ :: rest, f => f / numel rest :: toMulti rest (f % numel rest)

/-- Flat row-major index of a multi-index for the given shape. -/
def fromMulti : List Nat → List Nat → Nat
  | [], _ => 0
  | _ :: rest, m => m.headD 0 * numel rest + fromMulti rest m.tail

/-- Shape after `sum(axes, keepdims=True)`: the listed axes collapse to
size 1. -/
def sumKeepShape (s : List Nat) (axes : List Nat) : List Nat :=
  s.mapIdx (fun i n => if i ∈ axes then 1 else n)

/-- Where a flat index of the full shape lands in the keep-dims result:
coordinates on the summed axes are reset to 0. -/
def collapseIdx (s : List Nat) (axes : List Nat) (f : Nat) : Nat :=
  fromMulti (sumKeepShape s axes) ((toMulti s f).mapIdx (fun i c => if i ∈ axes then 0 else c))

/-- Contents of `a.sum(axes, keepdims=True)` for an array of shape `s` with
flat contents `d`: each output cell sums the input cells that collapse onto
it. -/
def sumKeep (s : List Nat) (axes : List Nat) (d : List Int) : List Int :=
  (List.range (numel (sumKeepShape s axes))).map (fun o =>
    (((List.range (numel s)).filter (fun f => collapseIdx s axes f = o)).map
      (fun f => d.getD f 0)).sum)

/-! ## Expand (lines 69-107) -/

/-- Whether the validation loop (lines 79-94) raises at index `i`:
a non-positive target size in a newly introduced leading dimension, or, in an
existing dimension (counted from the trailing end, `i -= len(sizes)` in the
source makes `sizes[i]` and `strides[i]` refer to position `i` and
`xd0.shape[i]` to position `i - leading_dims`), a target that differs from a
non-singleton existing size and is not `-1`. -/
def Expand.errAt (shape : List Nat) (sizes : List Int) (i : Nat) : Bool :=
  let L := sizes.length - shape.length
  if i < L then sizes.getD i 0 ≤ 0
  else
    decide (shape.getD (i - L) 0 ≠ 1 ∧ sizes.getD i 0 ≠ -1 ∧
      sizes.getD i 0 ≠ (shape.getD (i - L) 0 : Int))

/-- Embeds the parameter-validation part of `Expand.forward` (lines 76-95):
the loop over `range(len(sizes))` raising on the first offending index, the
collection of `xd0_singleton_dims` (axes where a size-1 input dimension is
broadcast up; recorded here as non-negative positions in `sizes`, the source
stores the equivalent negative axis `i - len(sizes)`), and the `as_strided`
call, which in numpy requires as many target sizes as strides
(so `len(sizes) ≥ ndim`) and no negative sizes.  Returns what forward stashes
into `ctx.params`: `(xd0_singleton_dims, leading_dims)`. -/
def Expand.check (shape : List Nat) (sizes : List Int) : Except String (List Nat × Nat) :=
  let L := sizes.length - shape.length
  match (List.range sizes.length).find? (Expand.errAt shape sizes) with
  | some i =>
      if i < L then
        .error ("The expanded size of the tensor (" ++ toString (sizes.getD i 0) ++
          ") isn't allowed in a leading, non-existing dimension " ++ toString i)
      else
        .error ("The expanded size of the tensor (" ++ toString (sizes.getD i 0) ++
          ") must match the existing size (" ++ toString (shape.getD (i - L) 0) ++
          ") at non-singleton dimension " ++ toString i)
  | none =>
      if shape.length ≤ sizes.length ∧ sizes.all (fun z => 0 ≤ z) then
        .ok ((List.range sizes.length).filter (fun i =>
          decide (L ≤ i) && decide (shape.getD (i - L) 0 = 1) && decide (1 < sizes.getD i 0)), L)
      else .error "as_strided: negative dimensions are not allowed"

/-- Embeds `Expand.forward` (lines 70-99).  On success the produced output is
the `as_strided` view: it shares the input's storage, its index map sends an
expanded multi-index to the input cell obtained by dropping the leading axes
and zeroing the coordinate on each broadcast singleton axis (stride 0), and —
line 97, `yt0.data._version = xd0._version` — its version counter is set to
the input's (build_links alone would have started a fresh one). -/
def Expand.forward (xt0 : Tsr) (sizes : List Int) : Except String (Tsr × List Nat × Nat) :=
  match Expand.check xt0.shape sizes with
  | .error e => .error e
  | .ok (sd, L) =>
      let newShape := sizes.map Int.toNat
      .ok ({ storage := xt0.storage, shape := newShape,
             ix := fun f => xt0.ix (fromMulti xt0.shape
               (((toMulti newShape f).drop L).mapIdx (fun k c => if (L + k) ∈ sd then 0 else c))),
             backend := xt0.backend, version := xt0.version, outIdx := 0 },
            sd, L)

/-- Embeds `Expand.backward` (lines 101-107): sum the upstream gradient over
the recorded singleton axes and the leading axes with keep-dims, then squeeze
the leading axes away (they have size 1 after the sum, and dropping leading
size-1 axes leaves the row-major flat contents unchanged). -/
def Expand.backward (sd : List Nat) (L : Nat) (g : V) : V :=
  let axes := sd ++ List.range L
  ⟨(sumKeepShape g.shape axes).drop L, sumKeep g.shape axes g.data⟩

/-- C7: every successful `Expand.forward` returns a zero-copy view: it shares
the input's storage cell, and its version counter equals the input's version
counter at call time (line 97) instead of the fresh counter `build_links`
would give it. -/
theorem Expand_forward_view_version (xt0 : Tsr) (sizes : List Int)
    (hok : isOkE (Expand.forward xt0 sizes) = true) :
    ∃ y sd L, Expand.forward xt0 sizes = .ok (y, sd, L) ∧
      y.storage = xt0.storage ∧ y.version = xt0.version := by
  unfold Expand.forward at hok ⊢
  cases hch : Expand.check xt0.shape sizes with
  | error e => rw [hch] at hok; simp [isOkE] at hok
  | ok p =>
      obtain ⟨sd, L⟩ := p
      exact ⟨_, sd, L, rfl, rfl, rfl⟩

/-- A contiguous host tensor of shape `[1, 3]` living in storage cell 0. -/
def t13 : Tsr := ⟨0, [1, 3], fun i => i, false, 7, 0⟩

/-- Witness for C7: expanding a `(1,3)` tensor (version 7) to `(4,3)`
succeeds, shares storage cell 0 and keeps version 7. -/
theorem Expand_forward_view_version_witness :
    ∃ y sd L, Expand.forward t13 [4, 3] = .ok (y, sd, L) ∧
      y.storage = t13.storage ∧ y.version = t13.version :=
  Expand_forward_view_version t13 [4, 3] rfl

/-- Success inversion for `Expand.check`: what `ctx.params` contains and
which side conditions hold when the validation passed. -/
theorem Expand.check_ok (shape : List Nat) (sizes : List Int) (sd : List Nat) (L : Nat)
    (hok : Expand.check shape sizes = .ok (sd, L)) :
    L = sizes.length - shape.length ∧ shape.length ≤ sizes.length ∧
    (∀ z ∈ sizes, 0 ≤ z) ∧
    (∀ i, i ∈ sd ↔ i < sizes.length ∧ L ≤ i ∧
      shape.getD (i - L) 0 = 1 ∧ 1 < sizes.getD i 0) := by
  unfold Expand.check at hok
  split at hok
  · dsimp only at hok
    split at hok <;> exact Except.noConfusion hok
  · dsimp only at hok
    split at hok
    case isFalse => exact Except.noConfusion hok
    case isTrue hcond =>
        simp only [Except.ok.injEq, Prod.mk.injEq] at hok
        obtain ⟨hsd, hL⟩ := hok
        refine ⟨hL.symm, hcond.1, ?_, ?_⟩
        · intro z hz
          have := hcond.2
          rw [List.all_eq_true] at this
          simpa using this z hz
        · intro i
          rw [← hsd, List.mem_filter, List.mem_range]
          rw [← hL]
          simp [and_assoc]

/-- C4: for every valid expansion — validity in the spec's sense: each target
size matches the existing size, is `-1`, or broadcasts a size-1 input
dimension up to a larger size — on which `Expand.forward`'s validation
succeeds recording `(sd, L)`, backward reduces an upstream gradient of the
expanded shape by summing with keep-dims over exactly the broadcast singleton
axes `sd` and the new leading axes, then squeezing the leading axes away, and
the resulting shape is exactly the input's original shape; in particular the
two concrete reductions `(1,3) → (4,3)` and `(3,) → (2,3)` from the claim. -/
theorem Expand_backward_reduces_to_input_shape (shape : List Nat) (sizes : List Int)
    (sd : List Nat) (L : Nat) (g : V)
    (hok : Expand.check shape sizes = .ok (sd, L))
    (hvalid : ∀ k, k < shape.length →
      sizes.getD (L + k) 0 = (shape.getD k 0 : Int) ∨ sizes.getD (L + k) 0 = -1 ∨
      (shape.getD k 0 = 1 ∧ 1 < sizes.getD (L + k) 0))
    (hg : g.shape = sizes.map Int.toNat) :
    (Expand.backward sd L g).shape = shape ∧
    (Expand.backward sd L g).data = sumKeep g.shape (sd ++ List.range L) g.data ∧
    (∀ i, i ∈ sd ↔ i < sizes.length ∧ L ≤ i ∧
      shape.getD (i - L) 0 = 1 ∧ 1 < sizes.getD i 0) ∧
    Expand.backward [0] 0 ⟨[4, 3], List.replicate 12 1⟩ = ⟨[1, 3], [4, 4, 4]⟩ ∧
    Expand.backward [] 1 ⟨[2, 3], [1, 2, 3, 4, 5, 6]⟩ = ⟨[3], [5, 7, 9]⟩ := by
  obtain ⟨hL, hlen, hnn, hmem⟩ := Expand.check_ok shape sizes sd L hok
  refine ⟨?_, rfl, hmem, by decide, by decide⟩
  show (sumKeepShape g.shape (sd ++ List.range L)).drop L = shape
  have hglen : g.shape.length = sizes.length := by rw [hg, List.length_map]
  have hkslen : (sumKeepShape g.shape (sd ++ List.range L)).length = sizes.length := by
    simp only [sumKeepShape]
    rw [List.length_mapIdx, hglen]
  apply List.ext_getElem
  · rw [List.length_drop, hkslen]; omega
  · intro k hk1 hk2
    rw [List.length_drop, hkslen] at hk1
    have hk : k < shape.length := by omega
    have hLk : L + k < sizes.length := by omega
    have hgsk : L + k < g.shape.length := by omega
    rw [List.getElem_drop]
    simp only [sumKeepShape]
    rw [List.getElem_mapIdx]
    have hgval : g.shape[L + k] = (sizes.getD (L + k) 0).toNat := by
      simp only [hg]
      rw [List.getElem_map, List.getD_eq_getElem _ _ hLk]
    have hnotrange : (L + k) ∉ List.range L := by
      rw [List.mem_range]; omega
    have hmem' : ((L + k) ∈ sd ++ List.range L) ↔
        (shape.getD k 0 = 1 ∧ 1 < sizes.getD (L + k) 0) := by
      rw [List.mem_append]
      constructor
      · rintro (hin | hin)
        · have := (hmem (L + k)).mp hin
          simpa using this.2.2
        · exact absurd hin hnotrange
      · intro hcond
        left
        exact (hmem (L + k)).mpr ⟨hLk, by omega, by simpa using hcond.1, hcond.2⟩
    have hshk : shape.getD k 0 = shape[k] := List.getD_eq_getElem _ _ hk
    rcases hvalid k hk with hcase | hcase | hcase
    · -- target size matches the existing size: the axis is not summed
      have hnot : ¬((L + k) ∈ sd ++ List.range L) := by
        rw [hmem']
        rintro ⟨h1, h2⟩
        rw [h1] at hcase
        rw [hcase] at h2
        exact absurd h2 (by norm_num)
      rw [if_neg hnot, hgval, hcase, hshk]
      exact Int.toNat_natCast _
    · -- target size -1 is ruled out by as_strided's non-negativity check
      exfalso
      have h0 : (0 : Int) ≤ sizes.getD (L + k) 0 := by
        rw [List.getD_eq_getElem _ _ hLk]
        exact hnn _ (List.getElem_mem hLk)
      omega
    · -- broadcast singleton dimension: summed with keep-dims, stays size 1
      have hin : (L + k) ∈ sd ++ List.range L := hmem'.mpr ⟨hcase.1, hcase.2⟩
      rw [if_pos hin, hshk.symm, hcase.1]

/-- Witness for C4: the `(1,3) → (4,3)` expansion satisfies the hypotheses
(validation records singleton axis 0 and no leading axes, every target size
is a legal spec-§4.3 expansion target), and backward indeed reduces back to
shape `(1,3)`. -/
theorem Expand_backward_reduces_to_input_shape_witness :
    (Expand.backward [0] 0 ⟨[4, 3], List.replicate 12 1⟩).shape = [1, 3] :=
  (Expand_backward_reduces_to_input_shape [1, 3] [4, 3] [0] 0
    ⟨[4, 3], List.replicate 12 1⟩ rfl (by decide) rfl).1

/-! ## Heap access helper lemmas -/

/-- Reading an untouched cell of a `set` heap. -/
theorem getD_set_ne {α : Type} (l : List α) (i j : Nat) (x d : α) (hne : i ≠ j) :
    (l.set i x).getD j d = l.getD j d := by
  rw [List.getD_eq_getElem?_getD, List.getD_eq_getElem?_getD, List.getElem?_set_ne hne]

/-- Reading the written cell of a `set` heap. -/
theorem getD_set_self {α : Type} (l : List α) (i : Nat) (x d : α) (hi : i < l.length) :
    (l.set i x).getD i d = x := by
  rw [List.getD_eq_getElem?_getD, List.getElem?_set_self hi, Option.getD_some]

/-- `List.contains` decides membership. -/
theorem contains_iff_mem {α : Type} [DecidableEq α] (l : List α) (a : α) :
    l.contains a = true ↔ a ∈ l := by
  simp [List.contains, List.elem_eq_mem]

/-! ## MaskedFill (lines 110-156) -/

/-- A boolean mask array: shape, flat contents, and whether its dtype really
is `bool` (`mask.dtype.type is np.bool_`); a non-bool mask carries no usable
contents here because forward rejects it before use. -/
structure MaskV where
  shape : List Nat
  data : List Bool
  isBool : Bool

/-- Whether the flat position `f` of an array whose trailing dimensions are
exactly `m.shape` is selected by the mask key
`(slice(None),) * (ndim - mask.ndim) + (mask.data,)`: row-major layout makes
the trailing block index `f % numel m.shape`, and the mask broadcasts over
the leading axes. -/
def maskSel (m : MaskV) (f : Nat) : Bool := m.data.getD (f % numel m.shape) false

/-- Embeds `MaskedFill.forward` (lines 111-138).  Checks in source order:
non-scalar fill value, non-bool mask dtype, and an accelerator-backend fill
value against a host-backend input; each failure returns before anything is
written.  The first returned component is the result, the second the final
state of the input tensor object (so version bumps are observable), the third
the final heap.  The in-place branch runs the Mutation Guard precheck
(modelled by the predicate `pre`), writes the fill value at the masked
positions of the input's buffer and bumps the version via `inplace_update`;
the copying branch fills a fresh copied buffer and wraps it via
`build_links`. -/
def MaskedFill.forward (h : Heap) (pre : Tsr → Bool) (xt0 xt1 : Tsr) (mask : MaskV)
    (inplace : Bool) : Except String Tsr × Tsr × Heap :=
  if xt1.shape ≠ [] then
    (.error ("masked_fill only supports a 0-dimensional value tensor, but got tensor with " ++
      toString xt1.shape.length ++ " dimension(s)."), xt0, h)
  else if mask.isBool = false then
    (.error "dtype of mask must be bool. Pass dtype=bool when constructing mask", xt0, h)
  else if xt0.backend = false ∧ xt1.backend = true then
    (.error "masked_fill: Expected inputs to be on same device", xt0, h)
  else
    let v := (bufOf h xt1).getD (xt1.ix 0) 0
    if inplace then
      if pre xt0 = false then
        (.error "inplace operation on a tensor with outstanding readers", xt0, h)
      else
        let poss := ((List.range (numel xt0.shape)).filter (fun f => maskSel mask f)).map xt0.ix
        let y := inplace_update xt0
        (.ok y, y, writeConst h xt0.storage poss v)
    else
      let newData := (val h xt0).mapIdx (fun f x => if maskSel mask f then v else x)
      (.ok (build_links h.length xt0.shape xt0.backend 0), xt0, h ++ [newData])

/-- Embeds `MaskedFill.backward` (lines 140-156).  The gradient for the fill
value is computed first ("Do this first because gd0 will be changed inplace
next"): it is the fresh 0-d array `gd0[key].sum()`, moved back to the host
backend by `.get()` (a further fresh host copy) when forward recorded the
coercion `flag`.  Then the gradient for the input is `gd0` itself with the
masked positions of its buffer zeroed in place. -/
def MaskedFill.backward (h : Heap) (mask : MaskV) (flag : Bool) (needs0 needs1 : Bool)
    (gd0 : Tsr) : (Option Tsr × Option Tsr) × Heap :=
  let n := numel gd0.shape
  let state1 : Option Tsr × Heap :=
    if needs1 then
      let s : Int := (((List.range n).filter (fun f => maskSel mask f)).map
        (fun f => (bufOf h gd0).getD (gd0.ix f) 0)).sum
      if flag then
        (some ⟨h.length + 1, [], fun i => i, false, 0, 0⟩, h ++ [[s]] ++ [[s]])
      else
        (some ⟨h.length, [], fun i => i, gd0.backend, 0, 0⟩, h ++ [[s]])
    else (none, h)
  let grad1 := state1.1
  let h1 := state1.2
  if needs0 then
    let poss := ((List.range n).filter (fun f => maskSel mask f)).map gd0.ix
    ((some gd0, grad1), writeConst h1 gd0.storage poss 0)
  else ((none, grad1), h1)

/-- C9: `MaskedFill.forward` fails on a fill value of non-zero rank, on a
mask whose dtype is not boolean (whatever the mask's shape), and on an
accelerator-backend fill value with a host-backend input; in every such case
the call returns before any write, so the input tensor object (data and
version counter) and the heap are exactly as before the call, in the
in-place variant as well as the copying one. -/
theorem MaskedFill_forward_error_frame (h : Heap) (pre : Tsr → Bool) (xt0 xt1 : Tsr)
    (mask : MaskV) (inplace : Bool)
    (herr : xt1.shape ≠ [] ∨ mask.isBool = false ∨
      (xt0.backend = false ∧ xt1.backend = true)) :
    (∃ e, (MaskedFill.forward h pre xt0 xt1 mask inplace).1 = .error e) ∧
    (MaskedFill.forward h pre xt0 xt1 mask inplace).2.1 = xt0 ∧
    (MaskedFill.forward h pre xt0 xt1 mask inplace).2.2 = h := by
  unfold MaskedFill.forward
  rcases herr with he | he | he
  · rw [if_pos he]
    exact ⟨⟨_, rfl⟩, rfl, rfl⟩
  · by_cases h1 : xt1.shape ≠ []
    · rw [if_pos h1]
      exact ⟨⟨_, rfl⟩, rfl, rfl⟩
    · rw [if_neg h1, if_pos he]
      exact ⟨⟨_, rfl⟩, rfl, rfl⟩
  · by_cases h1 : xt1.shape ≠ []
    · rw [if_pos h1]
      exact ⟨⟨_, rfl⟩, rfl, rfl⟩
    · rw [if_neg h1]
      by_cases h2 : mask.isBool = false
      · rw [if_pos h2]
        exact ⟨⟨_, rfl⟩, rfl, rfl⟩
      · rw [if_neg h2, if_pos he]
        exact ⟨⟨_, rfl⟩, rfl, rfl⟩

/-- A rank-1 host tensor used as an (illegal) fill value. -/
def v1 : Tsr := ⟨1, [1], fun i => i, false, 3, 0⟩

/-- A concrete boolean mask of shape `[2]`. -/
def m2 : MaskV := ⟨[2], [true, false], true⟩

/-- Witness for C9: filling with a rank-1 value tensor fails and leaves the
input object and the heap untouched. -/
theorem MaskedFill_forward_error_frame_witness :
    (∃ e, (MaskedFill.forward [[1, 2], [5]] (fun _ => true) g2 v1 m2 true).1 = .error e) ∧
    (MaskedFill.forward [[1, 2], [5]] (fun _ => true) g2 v1 m2 true).2.1 = g2 ∧
    (MaskedFill.forward [[1, 2], [5]] (fun _ => true) g2 v1 m2 true).2.2 = [[1, 2], [5]] :=
  MaskedFill_forward_error_frame [[1, 2], [5]] (fun _ => true) g2 v1 m2 true
    (Or.inl (by decide))

/-- Reading a valid flat position of a tensor's value goes through its index
map into its buffer. -/
theorem val_getD (h : Heap) (t : Tsr) (f : Nat) (hf : f < numel t.shape) :
    (val h t).getD f 0 = (bufOf h t).getD (t.ix f) 0 := by
  have hlen : ((List.range (numel t.shape)).map
      (fun i => (bufOf h t).getD (t.ix i) 0)).length = numel t.shape := by simp
  rw [val, List.getD_eq_getElem _ _ (by rw [hlen]; exact hf), List.getElem_map,
    List.getElem_range]

/-- Reading an element of `mapIdx` at a valid position. -/
theorem getD_mapIdx {α : Type} (l : List α) (f : Nat → α → α) (i : Nat) (d : α)
    (hi : i < l.length) :
    (l.mapIdx f).getD i d = f i (l.getD i d) := by
  rw [List.getD_eq_getElem _ _ (by rw [List.length_mapIdx]; exact hi), List.getElem_mapIdx,
    List.getD_eq_getElem _ _ hi]

/-- The buffer of the written cell after `writeConst` over a grown heap. -/
theorem writeConst_getD_same (h rest : Heap) (sid : Nat) (poss : List Nat) (v : Int)
    (hs : sid < h.length) :
    (writeConst (h ++ rest) sid poss v).getD sid [] =
      (h.getD sid []).mapIdx (fun i x => if poss.contains i then v else x) := by
  rw [writeConst, getD_set_self _ _ _ _ (by simp; omega), List.getD_append _ _ _ _ hs]

/-- `writeConst` leaves every other cell alone. -/
theorem writeConst_getD_other (h : Heap) (sid sid' : Nat) (poss : List Nat) (v : Int)
    (hne : sid ≠ sid') :
    (writeConst h sid poss v).getD sid' [] = h.getD sid' [] :=
  getD_set_ne _ _ _ _ _ hne

/-- Reading the second appended cell after a `writeConst` on an old cell. -/
theorem grad1cell_two (h : Heap) (x y : List Int) (sid : Nat) (poss : List Nat)
    (hs : sid < h.length) :
    (writeConst (h ++ [x] ++ [y]) sid poss 0).getD (h.length + 1) [] = y := by
  rw [writeConst_getD_other _ _ _ _ _ (by omega), List.append_assoc,
    List.getD_append_right _ _ _ _ (by omega)]
  rw [show h.length + 1 - h.length = 1 from by omega]
  rfl

/-- Reading the appended cell after a `writeConst` on an old cell. -/
theorem grad1cell_one (h : Heap) (x : List Int) (sid : Nat) (poss : List Nat)
    (hs : sid < h.length) :
    (writeConst (h ++ [x]) sid poss 0).getD h.length [] = x := by
  rw [writeConst_getD_other _ _ _ _ _ (by omega),
    List.getD_append_right _ _ _ _ (by omega), Nat.sub_self]
  rfl

/-- The masked-position sum `gd0[key].sum()` computed by
`MaskedFill.backward` before the in-place zeroing (reads through the
gradient's index map into its buffer). -/
def mfSum (h : Heap) (mask : MaskV) (gd0 : Tsr) : Int :=
  (((List.range (numel gd0.shape)).filter (fun f => maskSel mask f)).map
    (fun f => (bufOf h gd0).getD (gd0.ix f) 0)).sum

/-- C2: for a contiguous upstream gradient `G` whose trailing dimensions are
the mask's shape, `MaskedFill.backward` with both gradients requested returns
the input gradient as `gd0` itself whose buffer now holds `G` with every
masked position zeroed, and the value gradient as a fresh 0-d tensor (a
different storage cell, so unaffected by the in-place zeroing that follows
its computation) holding the sum of `G` over the masked positions, placed on
the host backend when forward recorded the coercion flag and on `G`'s
backend otherwise. -/
theorem MaskedFill_backward_correct (h : Heap) (mask : MaskV) (flag : Bool) (gd0 : Tsr)
    (lead : List Nat)
    (hshape : gd0.shape = lead ++ mask.shape)
    (hmlen : mask.data.length = numel mask.shape)
    (hix : ∀ i, gd0.ix i = i)
    (hbuf : (bufOf h gd0).length = numel gd0.shape)
    (hstor : gd0.storage < h.length) :
    (MaskedFill.backward h mask flag true true gd0).1.1 = some gd0 ∧
    (∀ i, i < numel gd0.shape →
      (bufOf (MaskedFill.backward h mask flag true true gd0).2 gd0).getD i 0 =
        if maskSel mask i then 0 else (val h gd0).getD i 0) ∧
    (∃ t, (MaskedFill.backward h mask flag true true gd0).1.2 = some t ∧
      t.shape = [] ∧
      bufOf (MaskedFill.backward h mask flag true true gd0).2 t =
        [(((List.range (numel gd0.shape)).filter (fun f => maskSel mask f)).map
            (fun f => (val h gd0).getD f 0)).sum] ∧
      t.backend = (if flag then false else gd0.backend) ∧
      t.storage ≠ gd0.storage) := by
  have hposs : ((List.range (numel gd0.shape)).filter (fun f => maskSel mask f)).map gd0.ix =
      (List.range (numel gd0.shape)).filter (fun f => maskSel mask f) := by
    rw [show ((List.range (numel gd0.shape)).filter (fun f => maskSel mask f)).map gd0.ix =
        ((List.range (numel gd0.shape)).filter (fun f => maskSel mask f)).map id from
      List.map_congr_left (fun a _ => hix a), List.map_id]
  have hsum : mfSum h mask gd0 =
      (((List.range (numel gd0.shape)).filter (fun f => maskSel mask f)).map
      (fun f => (val h gd0).getD f 0)).sum := by
    rw [mfSum]
    congr 1
    apply List.map_congr_left
    intro f hf
    have hfn : f < numel gd0.shape := by
      have := (List.mem_filter.mp hf).1
      rwa [List.mem_range] at this
    rw [val_getD h gd0 f hfn]
  have hbufread : ∀ hbig : Heap, hbig.getD gd0.storage [] = bufOf h gd0 →
      gd0.storage < hbig.length → ∀ i, i < numel gd0.shape →
      ((writeConst hbig gd0.storage
        (((List.range (numel gd0.shape)).filter (fun f => maskSel mask f)).map gd0.ix)
        0).getD gd0.storage []).getD i 0 =
      if maskSel mask i then 0 else (val h gd0).getD i 0 := by
    intro hbig hh hl i hi
    have hib : i < (bufOf h gd0).length := by rw [hbuf]; exact hi
    rw [writeConst, getD_set_self _ _ _ _ (by simpa using hl), hh, hposs]
    rw [getD_mapIdx _ _ _ _ hib]
    by_cases hm : maskSel mask i
    · rw [if_pos hm, if_pos]
      rw [contains_iff_mem, List.mem_filter, List.mem_range]
      exact ⟨hi, hm⟩
    · rw [if_neg hm, if_neg, val_getD h gd0 i hi, hix i]
      rw [contains_iff_mem, List.mem_filter, List.mem_range]
      rintro ⟨-, hm'⟩
      exact hm hm'
  by_cases hf : flag
  · subst hf
    have hh2 : ((h ++ [[mfSum h mask gd0]]) ++ [[mfSum h mask gd0]]).getD gd0.storage [] =
        bufOf h gd0 := by
      rw [List.getD_append _ _ _ _ (by simp; omega), List.getD_append _ _ _ _ hstor]
      rfl
    refine ⟨rfl, ?_, ?_⟩
    · intro i hi
      exact hbufread ((h ++ [[mfSum h mask gd0]]) ++ [[mfSum h mask gd0]]) hh2
        (by simp; omega) i hi
    · refine ⟨⟨h.length + 1, [], fun i => i, false, 0, 0⟩, rfl, rfl, ?_, rfl,
        by show h.length + 1 ≠ gd0.storage; omega⟩
      exact (grad1cell_two h [mfSum h mask gd0] [mfSum h mask gd0] gd0.storage
        (((List.range (numel gd0.shape)).filter (fun f => maskSel mask f)).map gd0.ix)
        hstor).trans (by rw [hsum])
  · simp only [Bool.not_eq_true] at hf
    subst hf
    have hh1 : (h ++ [[mfSum h mask gd0]]).getD gd0.storage [] = bufOf h gd0 := by
      rw [List.getD_append _ _ _ _ hstor]
      rfl
    refine ⟨rfl, ?_, ?_⟩
    · intro i hi
      exact hbufread (h ++ [[mfSum h mask gd0]]) hh1 (by simp; omega) i hi
    · refine ⟨⟨h.length, [], fun i => i, gd0.backend, 0, 0⟩, rfl, rfl, ?_, rfl,
        by show h.length ≠ gd0.storage; omega⟩
      exact (grad1cell_one h [mfSum h mask gd0] gd0.storage
        (((List.range (numel gd0.shape)).filter (fun f => maskSel mask f)).map gd0.ix)
        hstor).trans (by rw [hsum])

/-- Witness for C2: a concrete masked-fill backward over `G = [1, 2]` with
mask `[true, false]` returns `G` itself as the input gradient. -/
theorem MaskedFill_backward_correct_witness :
    (MaskedFill.backward [[1, 2]] m2 false true true g2).1.1 = some g2 :=
  (MaskedFill_backward_correct [[1, 2]] m2 false g2 [] rfl rfl (fun _ => rfl) rfl
    (by decide)).1

/-! ## CopySlices (lines 159-196) -/

/-- Modelled from the spec: the reverse-broadcast-reduction helper
(`reverse_broadcast`, from the repo's `autograd/helper.py`, not under
`src/`): "reducing a gradient shaped like a broadcast output back down to
the shape of the pre-broadcast input by summing over the broadcast axes"
(glossary), i.e. sum away the extra leading axes and sum with keep-dims over
the axes where the target shape has size 1 but the gradient does not. -/
def reverse_broadcast (g : V) (target : List Nat) : V :=
  let L := g.shape.length - target.length
  let singles := (List.range g.shape.length).filter (fun i =>
    decide (L ≤ i) && decide (target.getD (i - L) 0 = 1) && decide (g.shape.getD i 0 ≠ 1))
  ⟨(sumKeepShape g.shape (singles ++ List.range L)).drop L,
   sumKeep g.shape (singles ++ List.range L) g.data⟩

/-- An index key (`ctx.params['key']`) in abstract form, the interface this
code needs from numpy basic indexing: the shape of the selected region and
an (injective, for genuine numpy keys) map from the region's flat row-major
index to the flat index it selects in the indexed array. -/
structure Key where
  subShape : List Nat
  sel : Nat → Nat

/-- The sub-array `gd0[key]`: a fresh value whose cells read the selected
flat positions of `gd0`. -/
def csSub (h : Heap) (key : Key) (gd0 : Tsr) : V :=
  ⟨key.subShape, (List.range (numel key.subShape)).map
    (fun f => (bufOf h gd0).getD (gd0.ix (key.sel f)) 0)⟩

/-- Embeds `CopySlices.backward` (lines 180-196).  The source gradient is
computed first ("Do this first because gd0 will be changed inplace next"):
`reverse_broadcast(gd0[key], xd1_shape)` is a fresh array, coerced back
across backends according to the recorded `flag` (`.get()` to the host for
`some true`, `cp.array` to the accelerator for `some false`; each coercion is
one further fresh buffer).  Then the destination gradient is `gd0` itself
with the key-selected positions of its buffer zeroed in place. -/
def CopySlices.backward (h : Heap) (key : Key) (xd1shape : List Nat) (flag : Option Bool)
    (needs0 needs1 : Bool) (gd0 : Tsr) : (Option Tsr × Option Tsr) × Heap :=
  let state1 : Option Tsr × Heap :=
    if needs1 then
      let rb := reverse_broadcast (csSub h key gd0) xd1shape
      match flag with
      | some true =>
          (some ⟨h.length + 1, rb.shape, fun i => i, false, 0, 0⟩, (h ++ [rb.data]) ++ [rb.data])
      | some false =>
          (some ⟨h.length + 1, rb.shape, fun i => i, true, 0, 0⟩, (h ++ [rb.data]) ++ [rb.data])
      | none => (some ⟨h.length, rb.shape, fun i => i, gd0.backend, 0, 0⟩, h ++ [rb.data])
    else (none, h)
  let grad1 := state1.1
  let h1 := state1.2
  if needs0 then
    let poss := ((List.range (numel key.subShape)).map key.sel).map gd0.ix
    ((some gd0, grad1), writeConst h1 gd0.storage poss 0)
  else ((none, grad1), h1)

/-- C3: for a contiguous upstream gradient `G` and any in-bounds key, with
both gradients requested, `CopySlices.backward` returns the destination
gradient as `gd0` itself whose buffer now holds `G` with the key-selected
region zeroed, and the source gradient as a fresh tensor (separate storage,
hence computed from `G` before the zeroing) holding
`reverse_broadcast(G[key], xd1_shape)`, coerced back across backends exactly
as the recorded forward coercion dictates. -/
theorem CopySlices_backward_correct (h : Heap) (key : Key) (xd1shape : List Nat)
    (flag : Option Bool) (gd0 : Tsr)
    (hsel : ∀ f, f < numel key.subShape → key.sel f < numel gd0.shape)
    (hix : ∀ i, gd0.ix i = i)
    (hbuf : (bufOf h gd0).length = numel gd0.shape)
    (hstor : gd0.storage < h.length) :
    (CopySlices.backward h key xd1shape flag true true gd0).1.1 = some gd0 ∧
    (∀ i, i < numel gd0.shape →
      (bufOf (CopySlices.backward h key xd1shape flag true true gd0).2 gd0).getD i 0 =
        if (List.range (numel key.subShape)).any (fun f => key.sel f = i) then 0
        else (val h gd0).getD i 0) ∧
    (∃ t, (CopySlices.backward h key xd1shape flag true true gd0).1.2 = some t ∧
      t.shape = (reverse_broadcast
        ⟨key.subShape, (List.range (numel key.subShape)).map
          (fun f => (val h gd0).getD (key.sel f) 0)⟩ xd1shape).shape ∧
      bufOf (CopySlices.backward h key xd1shape flag true true gd0).2 t =
        (reverse_broadcast
          ⟨key.subShape, (List.range (numel key.subShape)).map
            (fun f => (val h gd0).getD (key.sel f) 0)⟩ xd1shape).data ∧
      t.backend = (match flag with
        | some true => false
        | some false => true
        | none => gd0.backend) ∧
      t.storage ≠ gd0.storage) := by
  have hsub : csSub h key gd0 =
      ⟨key.subShape, (List.range (numel key.subShape)).map
        (fun f => (val h gd0).getD (key.sel f) 0)⟩ := by
    rw [csSub, V.mk.injEq]
    refine ⟨rfl, List.map_congr_left ?_⟩
    intro f hf
    rw [List.mem_range] at hf
    rw [val_getD h gd0 (key.sel f) (hsel f hf)]
  have hbufread : ∀ hbig : Heap, hbig.getD gd0.storage [] = bufOf h gd0 →
      gd0.storage < hbig.length → ∀ i, i < numel gd0.shape →
      ((writeConst hbig gd0.storage
        (((List.range (numel key.subShape)).map key.sel).map gd0.ix)
        0).getD gd0.storage []).getD i 0 =
      if (List.range (numel key.subShape)).any (fun f => key.sel f = i) then 0
      else (val h gd0).getD i 0 := by
    intro hbig hh hl i hi
    have hib : i < (bufOf h gd0).length := by rw [hbuf]; exact hi
    have hposs : ((List.range (numel key.subShape)).map key.sel).map gd0.ix =
        (List.range (numel key.subShape)).map key.sel := by
      rw [show (((List.range (numel key.subShape)).map key.sel).map gd0.ix =
          ((List.range (numel key.subShape)).map key.sel).map id) from
        List.map_congr_left (fun a _ => hix a), List.map_id]
    have hcond : (((List.range (numel key.subShape)).map key.sel).contains i = true) ↔
        ((List.range (numel key.subShape)).any (fun f => key.sel f = i) = true) := by
      rw [contains_iff_mem, List.any_eq_true, List.mem_map]
      constructor
      · rintro ⟨f, hf, hfi⟩
        exact ⟨f, hf, by simpa using hfi⟩
      · rintro ⟨f, hf, hfi⟩
        exact ⟨f, hf, by simpa using hfi⟩
    rw [writeConst, getD_set_self _ _ _ _ (by simpa using hl), hh, hposs]
    rw [getD_mapIdx _ _ _ _ hib]
    by_cases hm : (List.range (numel key.subShape)).any (fun f => key.sel f = i)
    · rw [if_pos hm, if_pos (hcond.mpr hm)]
    · rw [if_neg hm, if_neg (fun hc => hm (hcond.mp hc)), val_getD h gd0 i hi, hix i]
  rcases flag with - | b
  · have hh1 : (h ++ [(reverse_broadcast (csSub h key gd0) xd1shape).data]).getD
        gd0.storage [] = bufOf h gd0 := by
      rw [List.getD_append _ _ _ _ hstor]
      rfl
    refine ⟨rfl, ?_, ?_⟩
    · intro i hi
      exact hbufread (h ++ [(reverse_broadcast (csSub h key gd0) xd1shape).data]) hh1
        (by simp; omega) i hi
    · refine ⟨⟨h.length, (reverse_broadcast (csSub h key gd0) xd1shape).shape,
        fun i => i, gd0.backend, 0, 0⟩, rfl, by rw [hsub], ?_, rfl,
        by show h.length ≠ gd0.storage; omega⟩
      exact (grad1cell_one h (reverse_broadcast (csSub h key gd0) xd1shape).data gd0.storage
        (((List.range (numel key.subShape)).map key.sel).map gd0.ix) hstor).trans
        (by rw [hsub])
  · cases b
    · have hh2 : ((h ++ [(reverse_broadcast (csSub h key gd0) xd1shape).data]) ++
          [(reverse_broadcast (csSub h key gd0) xd1shape).data]).getD gd0.storage [] =
          bufOf h gd0 := by
        rw [List.getD_append _ _ _ _ (by simp; omega), List.getD_append _ _ _ _ hstor]
        rfl
      refine ⟨rfl, ?_, ?_⟩
      · intro i hi
        exact hbufread _ hh2 (by simp; omega) i hi
      · refine ⟨⟨h.length + 1, (reverse_broadcast (csSub h key gd0) xd1shape).shape,
          fun i => i, true, 0, 0⟩, rfl, by rw [hsub], ?_, rfl,
          by show h.length + 1 ≠ gd0.storage; omega⟩
        exact (grad1cell_two h (reverse_broadcast (csSub h key gd0) xd1shape).data
          (reverse_broadcast (csSub h key gd0) xd1shape).data gd0.storage
          (((List.range (numel key.subShape)).map key.sel).map gd0.ix) hstor).trans
          (by rw [hsub])
    · have hh2 : ((h ++ [(reverse_broadcast (csSub h key gd0) xd1shape).data]) ++
          [(reverse_broadcast (csSub h key gd0) xd1shape).data]).getD gd0.storage [] =
          bufOf h gd0 := by
        rw [List.getD_append _ _ _ _ (by simp; omega), List.getD_append _ _ _ _ hstor]
        rfl
      refine ⟨rfl, ?_, ?_⟩
      · intro i hi
        exact hbufread _ hh2 (by simp; omega) i hi
      · refine ⟨⟨h.length + 1, (reverse_broadcast (csSub h key gd0) xd1shape).shape,
          fun i => i, false, 0, 0⟩, rfl, by rw [hsub], ?_, rfl,
          by show h.length + 1 ≠ gd0.storage; omega⟩
        exact (grad1cell_two h (reverse_broadcast (csSub h key gd0) xd1shape).data
          (reverse_broadcast (csSub h key gd0) xd1shape).data gd0.storage
          (((List.range (numel key.subShape)).map key.sel).map gd0.ix) hstor).trans
          (by rw [hsub])

/-- A concrete key selecting flat position 0 of a `[2]`-shaped array. -/
def kTest : Key := ⟨[1], fun f => f⟩

/-- Witness for C3: a concrete copy-slices backward over `G = [1, 2]` with a
key selecting position 0 returns `G` itself as the destination gradient. -/
theorem CopySlices_backward_correct_witness :
    (CopySlices.backward [[1, 2]] kTest [1] none true true g2).1.1 = some g2 :=
  (CopySlices_backward_correct [[1, 2]] kTest [1] none g2 (by decide) (fun _ => rfl) rfl
    (by decide)).1

/-- Mapping a pointwise-identity index map changes nothing. -/
theorem map_ix_id (l : List Nat) (gd0 : Tsr) (hix : ∀ i, gd0.ix i = i) :
    l.map gd0.ix = l := by
  rw [show l.map gd0.ix = l.map id from List.map_congr_left (fun a _ => hix a), List.map_id]

/-- `mapIdx` only looks at the function's values on the list's positions. -/
theorem mapIdx_congr {α : Type} (l : List α) (f g : Nat → α → α)
    (hfg : ∀ i, (hi : i < l.length) → f i l[i] = g i l[i]) :
    l.mapIdx f = l.mapIdx g := by
  apply List.ext_getElem
  · simp
  · intro n h1 h2
    rw [List.getElem_mapIdx, List.getElem_mapIdx]
    exact hfg n (by simpa using h1)

/-- In-place zeroing through `writeConst` seen from the mutated tensor's
buffer, for any heap that agrees with `h` on that cell. -/
theorem writeConst_frame (h h1 : Heap) (gd0 : Tsr) (poss : List Nat)
    (hh : h1.getD gd0.storage [] = bufOf h gd0)
    (hl : gd0.storage < h1.length) :
    bufOf (writeConst h1 gd0.storage poss 0) gd0 =
      (bufOf h gd0).mapIdx (fun i x => if poss.contains i then 0 else x) := by
  show (writeConst h1 gd0.storage poss 0).getD gd0.storage [] = _
  rw [writeConst, getD_set_self _ _ _ _ (by simpa using hl), hh]

/-- C10 (implicit frame effect): in the backward of MaskedFill, CopySlices
and Copy, when the first input's gradient is requested the returned first
gradient is the very same array object as the upstream gradient (`some gd0`)
and the upstream gradient's buffer has been overwritten in place — masked
positions, the key-selected region, or all elements zeroed respectively —
while when it is not requested the upstream buffer is left exactly as it
was. -/
theorem backward_overwrites_upstream_buffer :
    (∀ (h : Heap) (mask : MaskV) (flag : Bool) (needs1 : Bool) (gd0 : Tsr),
      (bufOf h gd0).length = numel gd0.shape → (∀ i, gd0.ix i = i) →
      gd0.storage < h.length →
      ((MaskedFill.backward h mask flag true needs1 gd0).1.1 = some gd0 ∧
       bufOf (MaskedFill.backward h mask flag true needs1 gd0).2 gd0 =
         (bufOf h gd0).mapIdx (fun i x => if maskSel mask i then 0 else x)) ∧
      bufOf (MaskedFill.backward h mask flag false needs1 gd0).2 gd0 = bufOf h gd0) ∧
    (∀ (h : Heap) (key : Key) (xd1shape : List Nat) (flag : Option Bool) (needs1 : Bool)
      (gd0 : Tsr),
      (bufOf h gd0).length = numel gd0.shape → (∀ i, gd0.ix i = i) →
      gd0.storage < h.length →
      ((CopySlices.backward h key xd1shape flag true needs1 gd0).1.1 = some gd0 ∧
       bufOf (CopySlices.backward h key xd1shape flag true needs1 gd0).2 gd0 =
         (bufOf h gd0).mapIdx (fun i x =>
           if (List.range (numel key.subShape)).any (fun f => key.sel f = i) then 0 else x)) ∧
      bufOf (CopySlices.backward h key xd1shape flag false needs1 gd0).2 gd0 = bufOf h gd0) ∧
    (∀ (h : Heap) (flag : Option Bool) (needs1 : Bool) (gd0 : Tsr),
      (bufOf h gd0).length = numel gd0.shape → (∀ i, gd0.ix i = i) →
      gd0.storage < h.length →
      ((Copy.backward h flag true needs1 gd0).1.1 = some gd0 ∧
       bufOf (Copy.backward h flag true needs1 gd0).2 gd0 =
         List.replicate (bufOf h gd0).length 0) ∧
      bufOf (Copy.backward h flag false needs1 gd0).2 gd0 = bufOf h gd0) := by
  have hmfix : ∀ (mask : MaskV) (gd0 : Tsr), (∀ i, gd0.ix i = i) →
      ∀ (h : Heap) (hbuf : (bufOf h gd0).length = numel gd0.shape),
      (bufOf h gd0).mapIdx (fun i x =>
        if (((List.range (numel gd0.shape)).filter (fun f => maskSel mask f)).map
          gd0.ix).contains i then 0 else x) =
      (bufOf h gd0).mapIdx (fun i x => if maskSel mask i then 0 else x) := by
    intro mask gd0 hix h hbuf
    apply mapIdx_congr
    intro i hi
    simp only [map_ix_id _ gd0 hix]
    by_cases hm : maskSel mask i
    · rw [if_pos hm, if_pos]
      rw [contains_iff_mem, List.mem_filter, List.mem_range]
      exact ⟨by omega, hm⟩
    · rw [if_neg hm, if_neg]
      rw [contains_iff_mem, List.mem_filter]
      rintro ⟨-, hm'⟩
      exact hm hm'
  have hcsix : ∀ (key : Key) (gd0 : Tsr), (∀ i, gd0.ix i = i) →
      ∀ (h : Heap),
      (bufOf h gd0).mapIdx (fun i x =>
        if (((List.range (numel key.subShape)).map key.sel).map gd0.ix).contains i
        then 0 else x) =
      (bufOf h gd0).mapIdx (fun i x =>
        if (List.range (numel key.subShape)).any (fun f => key.sel f = i) then 0 else x) := by
    intro key gd0 hix h
    apply mapIdx_congr
    intro i hi
    simp only [map_ix_id _ gd0 hix]
    by_cases hm : (List.range (numel key.subShape)).any (fun f => key.sel f = i)
    · rw [if_pos hm, if_pos]
      rw [List.any_eq_true] at hm
      obtain ⟨f, hf, hfi⟩ := hm
      rw [contains_iff_mem, List.mem_map]
      exact ⟨f, hf, by simpa using hfi⟩
    · rw [if_neg hm, if_neg]
      rw [contains_iff_mem, List.mem_map]
      rintro ⟨f, hf, hfi⟩
      exact hm (List.any_eq_true.mpr ⟨f, hf, by simpa using hfi⟩)
  have hcopyix : ∀ (gd0 : Tsr), (∀ i, gd0.ix i = i) →
      ∀ (h : Heap) (hbuf : (bufOf h gd0).length = numel gd0.shape),
      (bufOf h gd0).mapIdx (fun i x =>
        if (((List.range (numel gd0.shape)).map gd0.ix).contains i) then 0 else x) =
      List.replicate (bufOf h gd0).length 0 := by
    intro gd0 hix h hbuf
    apply List.ext_getElem
    · simp
    · intro n h1 h2
      rw [List.getElem_mapIdx, List.getElem_replicate]
      simp only [map_ix_id _ gd0 hix]
      rw [if_pos]
      rw [contains_iff_mem, List.mem_range]
      rw [List.length_mapIdx] at h1
      omega
  refine ⟨?_, ?_, ?_⟩
  · intro h mask flag needs1 gd0 hbuf hix hstor
    refine ⟨⟨rfl, ?_⟩, ?_⟩
    · cases needs1
      · exact (writeConst_frame h h gd0 _ rfl hstor).trans (hmfix mask gd0 hix h hbuf)
      · cases flag
        · refine (writeConst_frame h (h ++ [[mfSum h mask gd0]]) gd0 _
            (by rw [List.getD_append _ _ _ _ hstor]; rfl) (by simp; omega)).trans
            (hmfix mask gd0 hix h hbuf)
        · refine (writeConst_frame h ((h ++ [[mfSum h mask gd0]]) ++ [[mfSum h mask gd0]]) gd0 _
            (by rw [List.getD_append _ _ _ _ (by simp; omega),
                List.getD_append _ _ _ _ hstor]; rfl) (by simp; omega)).trans
            (hmfix mask gd0 hix h hbuf)
    · cases needs1
      · rfl
      · cases flag
        · show (h ++ [[mfSum h mask gd0]]).getD gd0.storage [] = _
          rw [List.getD_append _ _ _ _ hstor]
          rfl
        · show ((h ++ [[mfSum h mask gd0]]) ++ [[mfSum h mask gd0]]).getD gd0.storage [] = _
          rw [List.getD_append _ _ _ _ (by simp; omega), List.getD_append _ _ _ _ hstor]
          rfl
  · intro h key xd1shape flag needs1 gd0 hbuf hix hstor
    refine ⟨⟨rfl, ?_⟩, ?_⟩
    · cases needs1
      · exact (writeConst_frame h h gd0 _ rfl hstor).trans (hcsix key gd0 hix h)
      · rcases flag with - | b
        · refine (writeConst_frame h
            (h ++ [(reverse_broadcast (csSub h key gd0) xd1shape).data]) gd0 _
            (by rw [List.getD_append _ _ _ _ hstor]; rfl) (by simp; omega)).trans
            (hcsix key gd0 hix h)
        · cases b <;>
            exact (writeConst_frame h
              ((h ++ [(reverse_broadcast (csSub h key gd0) xd1shape).data]) ++
                [(reverse_broadcast (csSub h key gd0) xd1shape).data]) gd0 _
              (by rw [List.getD_append _ _ _ _ (by simp; omega),
                  List.getD_append _ _ _ _ hstor]; rfl) (by simp; omega)).trans
              (hcsix key gd0 hix h)
    · cases needs1
      · rfl
      · rcases flag with - | b
        · show (h ++ [(reverse_broadcast (csSub h key gd0) xd1shape).data]).getD
            gd0.storage [] = _
          rw [List.getD_append _ _ _ _ hstor]
          rfl
        · cases b <;>
            · show ((h ++ [(reverse_broadcast (csSub h key gd0) xd1shape).data]) ++
                [(reverse_broadcast (csSub h key gd0) xd1shape).data]).getD gd0.storage [] = _
              rw [List.getD_append _ _ _ _ (by simp; omega), List.getD_append _ _ _ _ hstor]
              rfl
  · intro h flag needs1 gd0 hbuf hix hstor
    refine ⟨⟨rfl, ?_⟩, ?_⟩
    · cases needs1
      · exact (writeConst_frame h h gd0 _ rfl hstor).trans (hcopyix gd0 hix h hbuf)
      · rcases flag with - | b
        · exact (writeConst_frame h h gd0 _ rfl hstor).trans (hcopyix gd0 hix h hbuf)
        · cases b <;>
            exact (writeConst_frame h (h ++ [val h gd0]) gd0 _
              (by rw [List.getD_append _ _ _ _ hstor]; rfl) (by simp; omega)).trans
              (hcopyix gd0 hix h hbuf)
    · cases needs1
      · rfl
      · rcases flag with - | b
        · rfl
        · cases b <;>
            · show (h ++ [val h gd0]).getD gd0.storage [] = _
              rw [List.getD_append _ _ _ _ hstor]
              rfl

/-- Witness for C10: on `G = [1, 2]` (storage 0 of a one-cell heap), each of
the three backward methods returns/preserves the upstream buffer as the
theorem states, instantiated here for one needs-combination of each op. -/
theorem backward_overwrites_upstream_buffer_witness :
    (MaskedFill.backward [[1, 2]] m2 false true true g2).1.1 = some g2 ∧
    bufOf (Copy.backward [[1, 2]] none true true g2).2 g2 =
      List.replicate (bufOf [[1, 2]] g2).length 0 ∧
    bufOf (CopySlices.backward [[1, 2]] kTest [1] none false true g2).2 g2 =
      bufOf [[1, 2]] g2 :=
  ⟨((backward_overwrites_upstream_buffer.1 [[1, 2]] m2 false true g2 rfl (fun _ => rfl)
      (by decide)).1).1,
   ((backward_overwrites_upstream_buffer.2.2 [[1, 2]] none true g2 rfl (fun _ => rfl)
      (by decide)).1).2,
   (backward_overwrites_upstream_buffer.2.1 [[1, 2]] kTest [1] none true g2 rfl (fun _ => rfl)
      (by decide)).2⟩

/-! ## Split (lines 6-66) -/

/-- The `split_size_or_sections` parameter: either an equal chunk length or
an explicit list of chunk lengths. -/
inductive SplitArg where
  | size (n : Nat)
  | sections (ns : List Nat)

/-- Flat index map of the basic slice `[a, a + len)` along a dimension of
extent `N` whose trailing block has `Q` elements: decompose the slice-local
flat index into `(p, j, q)` and re-embed at row `j + a` of the parent. -/
def sliceIx (N Q a len : Nat) (f : Nat) : Nat :=
  (f / (len * Q) * N + f / Q % len + a) * Q + f % Q

/-- One output chunk of `Split.forward`: the view
`xd0[..., a : b, ...]` along the (normalized) dimension `dN`, wrapped by
`build_links` with the chunk's `_output_idx` (views share the input's
storage and compose its index map; the fresh wrapper starts at version 0). -/
def Split.mkChunk (xt0 : Tsr) (dN a b oi : Nat) : Tsr :=
  { storage := xt0.storage, shape := xt0.shape.set dN (b - a),
    ix := fun f => xt0.ix (sliceIx (xt0.shape.getD dN 0) (numel (xt0.shape.drop (dN + 1)))
      a (b - a) f),
    backend := xt0.backend, version := 0, outIdx := oi }

/-- Embeds `Split.forward` (lines 7-51).  `dim_size = xd0.shape[dim]` is read
with Python indexing before `dim` is normalized.  The `split_size` branch
slices `[j, j + split_size)` for `j in range(0, dim_size, split_size)` (numpy
clamps the stop to `dim_size`, so the last chunk may be shorter) with
`_output_idx = j // split_size`; a zero `split_size` is Python's
`range() arg 3 must not be zero` error.  The `sections` branch first checks
that the sections sum to `dim_size` — otherwise the `split_with_sizes` error
naming the expected sum and the given sections — and then slices between the
cumulative sums (`np.cumsum`), with `_output_idx = j`.  The shapes of all
outputs are recorded in `ctx.params['output_shapes']` and returned second. -/
def Split.forward (xt0 : Tsr) (dim : Int) (arg : SplitArg) :
    Except String (List Tsr × List (List Nat)) :=
  let dimSize := pyGet xt0.shape dim
  let dN := normDim xt0.shape.length dim
  match arg with
  | .size s =>
      if s = 0 then .error "range() arg 3 must not be zero"
      else
        let starts := (List.range ((dimSize + s - 1) / s)).map (fun j => j * s)
        let outs := starts.map (fun st =>
          Split.mkChunk xt0 dN st (min (st + s) dimSize) (st / s))
        .ok (outs, outs.map (fun yt => yt.shape))
  | .sections ns =>
      if ns.sum ≠ dimSize then
        .error ("split_with_sizes expects split_sizes to sum exactly to " ++
          toString dimSize ++ " (input tensor's size at dimension " ++ toString dN ++
          "), but got split_sizes=" ++ toString ns)
      else
        let outs := (List.range ns.length).map (fun j =>
          Split.mkChunk xt0 dN ((ns.take (j + 1)).sum - ns.getD j 0) ((ns.take (j + 1)).sum) j)
        .ok (outs, outs.map (fun yt => yt.shape))

/-- Contents of `xp.zeros(shape)`. -/
def zerosV (s : List Nat) : List Int := List.replicate (numel s) 0

/-- Value-level `xp.concatenate(pieces, axis=dN)`: stack the pieces'
row-major blocks along the (normalized) axis; the off-axis structure is read
from the first piece, as numpy requires all pieces to agree off-axis. -/
def concatV (dN : Nat) (pieces : List V) : V :=
  let s0 := (pieces.headD ⟨[], []⟩).shape
  let P := numel (s0.take dN)
  let Q := numel (s0.drop (dN + 1))
  let total := (pieces.map (fun pc => pc.shape.getD dN 0)).sum
  ⟨s0.set dN total,
   ((List.range P).map (fun p =>
      (pieces.map (fun pc =>
        (pc.data.drop (p * (pc.shape.getD dN 0 * Q))).take
          (pc.shape.getD dN 0 * Q))).flatten)).flatten⟩

/-- Embeds `Split.backward` (lines 53-66): substitute a zero array of the
recorded output shape for every `None` upstream gradient, then concatenate
all slots in slot order along `dim` (normalized, as numpy does, against the
gradients' rank).  The scheduler passes one gradient slot per output, so the
slots are enumerated by the recorded `output_shapes`. -/
def Split.backward (h : Heap) (outputShapes : List (List Nat)) (dim : Int)
    (grads : List (Option Tsr)) : V :=
  let s0 := outputShapes.headD []
  let dN := normDim s0.length dim
  concatV dN ((List.range outputShapes.length).map (fun i =>
    match grads.getD i none with
    | none => ⟨outputShapes.getD i [], zerosV (outputShapes.getD i [])⟩
    | some g => ⟨g.shape, val h g⟩))

/-- C8: for every input tensor and any sections list whose sum differs from
the input's size along `dim`, `Split.forward` fails with the
`split_with_sizes` error that names the expected sum (the dimension size)
and the sections actually given; no outputs are produced. -/
theorem Split_forward_sections_sum_mismatch (xt0 : Tsr) (dim : Int) (ns : List Nat)
    (hdim : -(xt0.shape.length : Int) ≤ dim ∧ dim < (xt0.shape.length : Int))
    (hsum : ns.sum ≠ pyGet xt0.shape dim) :
    Split.forward xt0 dim (.sections ns) =
      .error ("split_with_sizes expects split_sizes to sum exactly to " ++
        toString (pyGet xt0.shape dim) ++ " (input tensor's size at dimension " ++
        toString (normDim xt0.shape.length dim) ++ "), but got split_sizes=" ++
        toString ns) := by
  unfold Split.forward
  exact if_pos hsum

/-- Witness for C8: splitting a `[2]`-shaped tensor with sections `[3]`
(summing to 3 ≠ 2) raises the sum-mismatch error. -/
theorem Split_forward_sections_sum_mismatch_witness :
    Split.forward g2 0 (.sections [3]) =
      .error ("split_with_sizes expects split_sizes to sum exactly to " ++
        toString (pyGet g2.shape 0) ++ " (input tensor's size at dimension " ++
        toString (normDim g2.shape.length 0) ++ "), but got split_sizes=" ++
        toString [3]) :=
  Split_forward_sections_sum_mismatch g2 0 [3] (by constructor <;> decide) (by decide)

/-- C6: `Split.backward` substitutes, for each `None` slot, a zero-filled
array shaped exactly as the recorded shape of that output, and returns the
concatenation of all slots in slot order along `dim`; when every slot is
present the result is exactly the concatenation of the upstream gradients
along `dim`. -/
theorem Split_backward_concat (h : Heap) (shapes : List (List Nat)) (dim : Int)
    (grads : List (Option Tsr)) (hlen : grads.length = shapes.length) :
    Split.backward h shapes dim grads = concatV (normDim (shapes.headD []).length dim)
      (List.zipWith (fun s og => match og with
        | none => (⟨s, zerosV s⟩ : V)
        | some g => ⟨g.shape, val h g⟩) shapes grads) ∧
    (∀ gs : List Tsr, grads = gs.map some →
      Split.backward h shapes dim grads = concatV (normDim (shapes.headD []).length dim)
        (gs.map (fun g => (⟨g.shape, val h g⟩ : V)))) := by
  constructor
  · show concatV (normDim (shapes.headD []).length dim)
        ((List.range shapes.length).map (fun i =>
          match grads.getD i none with
          | none => (⟨shapes.getD i [], zerosV (shapes.getD i [])⟩ : V)
          | some g => ⟨g.shape, val h g⟩)) = _
    congr 1
    apply List.ext_getElem
    · simp [hlen]
    · intro n h1 h2
      rw [List.length_map, List.length_range] at h1
      have hn2 : n < grads.length := by omega
      rw [List.getElem_map, List.getElem_range, List.getElem_zipWith]
      rw [List.getD_eq_getElem grads none hn2, List.getD_eq_getElem shapes [] h1]
  · intro gs hgs
    show concatV (normDim (shapes.headD []).length dim)
        ((List.range shapes.length).map (fun i =>
          match grads.getD i none with
          | none => (⟨shapes.getD i [], zerosV (shapes.getD i [])⟩ : V)
          | some g => ⟨g.shape, val h g⟩)) = _
    congr 1
    apply List.ext_getElem
    · rw [List.length_map, List.length_range, List.length_map]
      rw [hgs, List.length_map] at hlen
      omega
    · intro n h1 h2
      rw [List.length_map, List.length_range] at h1
      have hgl : gs.length = shapes.length := by
        rw [hgs, List.length_map] at hlen
        omega
      have hn2 : n < grads.length := by rw [hlen]; omega
      have hn3 : n < gs.length := by omega
      rw [List.getElem_map, List.getElem_range, List.getElem_map]
      rw [List.getD_eq_getElem grads none hn2]
      have : grads[n] = some gs[n] := by
        subst hgs
        rw [List.getElem_map]
      rw [this]

/-- Witness for C6: splitting slots `[some G, none]` with recorded shapes
`[[1], [1]]` concatenates `G`'s value with a zero slot. -/
theorem Split_backward_concat_witness :
    Split.backward [[7, 8]] [[1], [1]] 0 [some ⟨0, [1], fun i => i, false, 0, 0⟩, none] =
      concatV (normDim 1 0)
        (List.zipWith (fun s og => match og with
          | none => (⟨s, zerosV s⟩ : V)
          | some g => ⟨g.shape, val [[7, 8]] g⟩) [[1], [1]]
          [some ⟨0, [1], fun i => i, false, 0, 0⟩, none]) :=
  (Split_backward_concat [[7, 8]] [[1], [1]] 0
    [some ⟨0, [1], fun i => i, false, 0, 0⟩, none] rfl).1

/-! ## Lemmas for the split/concat inverse (C5) -/

/-- Head of a map over a positive range. -/
theorem headD_map_range {α : Type} (f : Nat → α) (k : Nat) (hk : 0 < k) (d : α) :
    ((List.range k).map f).headD d = f 0 := by
  rw [List.headD_eq_head?, List.head?_eq_getElem?, List.getElem?_map, List.getElem?_range hk]
  rfl

/-- Setting an index does not change the prefix before it. -/
theorem take_set_eq {α : Type} (l : List α) (i : Nat) (v : α) :
    (l.set i v).take i = l.take i := by
  apply List.ext_getElem
  · simp
  · intro n h1 h2
    rw [List.getElem_take, List.getElem_take, List.getElem_set_ne]
    have := h1
    simp only [List.length_take, List.length_set] at this
    omega

/-- Setting an index does not change the suffix after it. -/
theorem drop_set_eq {α : Type} (l : List α) (i : Nat) (v : α) :
    (l.set i v).drop (i + 1) = l.drop (i + 1) := by
  rw [List.drop_set, if_pos (by omega)]

/-- Reading the just-set index. -/
theorem getD_set_dim {α : Type} (l : List α) (i : Nat) (v d : α) (hi : i < l.length) :
    (l.set i v).getD i d = v := by
  rw [List.getD_eq_getElem _ _ (by simpa using hi), List.getElem_set_self]

/-- Setting an index back to its own value is the identity. -/
theorem set_getD_self {α : Type} (l : List α) (i : Nat) (d : α) (hi : i < l.length) :
    l.set i (l.getD i d) = l := by
  apply List.ext_getElem
  · simp
  · intro n h1 h2
    rw [List.getElem_set]
    split
    case isTrue hin => subst hin; rw [List.getD_eq_getElem _ _ hi]
    case isFalse => rfl

/-- Telescoping sum of successive differences of a monotone `Nat` map. -/
theorem telescope_sum (g : Nat → Nat) (hmono : ∀ j, g j ≤ g (j + 1)) (k : Nat) :
    ((List.range k).map (fun j => g (j + 1) - g j)).sum = g k - g 0 := by
  have hm : Monotone g := monotone_nat_of_le_succ hmono
  induction k with
  | zero => simp
  | succ k ih =>
      rw [List.range_succ, List.map_append, List.sum_append, ih]
      have h1 : g 0 ≤ g k := hm (Nat.zero_le k)
      have h2 : g k ≤ g (k + 1) := hmono k
      simp
      omega

/-- A chain of adjacent `(start, stop)` bounds from `a` to `b`. -/
def BoundsChain : Nat → Nat → List (Nat × Nat) → Prop
  | a, b, [] => a = b
  | a, b, ab :: t => ab.1 = a ∧ a ≤ ab.2 ∧ BoundsChain ab.2 b t

/-- A chain only moves forward. -/
theorem chain_le : ∀ (l : List (Nat × Nat)) (a b : Nat), BoundsChain a b l → a ≤ b := by
  intro l
  induction l with
  | nil => intro a b hc; exact Nat.le_of_eq hc
  | cons ab t ih =>
      intro a b hc
      obtain ⟨-, h2, h3⟩ := hc
      exact Nat.le_trans h2 (ih _ _ h3)

/-- Chains concatenate. -/
theorem chain_append : ∀ (l : List (Nat × Nat)) (a m b : Nat) (l' : List (Nat × Nat)),
    BoundsChain a m l → BoundsChain m b l' → BoundsChain a b (l ++ l') := by
  intro l
  induction l with
  | nil =>
      intro a m b l' hc hc'
      have : a = m := hc
      subst this
      exact hc'
  | cons ab t ih =>
      intro a m b l' hc hc'
      obtain ⟨h1, h2, h3⟩ := hc
      exact ⟨h1, h2, ih _ _ _ _ h3 hc'⟩

/-- Successive values of a step-monotone map form a chain. -/
theorem chain_ofG (g : Nat → Nat) (hmono : ∀ j, g j ≤ g (j + 1)) (k : Nat) :
    BoundsChain (g 0) (g k) ((List.range k).map (fun j => (g j, g (j + 1)))) := by
  induction k with
  | zero => exact rfl
  | succ k ih =>
      rw [List.range_succ, List.map_append]
      exact chain_append _ _ _ _ _ ih ⟨rfl, hmono k, rfl⟩

/-- Row-major element count splits at any dimension. -/
theorem numel_decompose (s : List Nat) (d : Nat) (hd : d < s.length) :
    numel s = numel (s.take d) * (s.getD d 0 * numel (s.drop (d + 1))) := by
  conv_lhs => rw [numel, ← List.take_append_drop d s, List.drop_eq_getElem_cons hd]
  rw [List.prod_append, List.prod_cons, numel, numel, List.getD_eq_getElem _ _ hd]

/-- A range over a product, blocked into rows. -/
theorem range_mul_join {α : Type} (g : Nat → α) (P M : Nat) :
    (List.range (P * M)).map g =
    ((List.range P).map (fun p => (List.range M).map (fun r => g (p * M + r)))).flatten := by
  induction P with
  | zero => simp
  | succ P ih =>
      rw [Nat.succ_mul, List.range_add, List.map_append, ih, List.range_succ,
        List.map_append, List.flatten_append]
      simp [List.map_map, Function.comp]

/-- Extracting one block of a flatten of equal-length blocks. -/
theorem join_uniform_extract {α : Type} (k : Nat) :
    ∀ (ls : List (List α)) (p : Nat), (∀ l ∈ ls, l.length = k) → p < ls.length →
    ((ls.flatten).drop (p * k)).take k = ls.getD p [] := by
  intro ls
  induction ls with
  | nil =>
      intro p _ hp
      simp at hp
  | cons l t ih =>
      intro p hlen hp
      cases p with
      | zero =>
          rw [List.flatten_cons, Nat.zero_mul, List.drop_zero,
            List.take_left' (hlen l (List.mem_cons_self l t))]
          rfl
      | succ p =>
          rw [List.flatten_cons, Nat.succ_mul, Nat.add_comm (p * k) k,
            show k = l.length from (hlen l (List.mem_cons_self l t)).symm, List.drop_append]
          rw [show l.length = k from hlen l (List.mem_cons_self l t)]
          exact ih p (fun x hx => hlen x (List.mem_cons_of_mem l hx)) (by simpa using hp)

/-- Where a slice-local position lands in the parent array: block `p`,
offset `a * Q + r` inside the block. -/
theorem sliceIx_eval (N Q a len p r : Nat) (hr : r < len * Q) :
    sliceIx N Q a len (p * (len * Q) + r) = p * (N * Q) + (a * Q + r) := by
  have hQ : 0 < Q := by
    rcases Nat.eq_zero_or_pos Q with h0 | h0
    · subst h0; simp at hr
    · exact h0
  have hlen : 0 < len := by
    rcases Nat.eq_zero_or_pos len with h0 | h0
    · subst h0; simp at hr
    · exact h0
  have h1 : (p * (len * Q) + r) % Q = r % Q := by
    rw [← Nat.mul_assoc, Nat.mul_comm (p * len) Q, Nat.mul_add_mod]
  have h2 : (p * (len * Q) + r) / Q = p * len + r / Q := by
    rw [← Nat.mul_assoc, Nat.mul_comm (p * len) Q, Nat.mul_add_div hQ]
  have h3 : (p * len + r / Q) % len = r / Q := by
    rw [Nat.mul_comm p len, Nat.mul_add_mod]
    exact Nat.mod_eq_of_lt ((Nat.div_lt_iff_lt_mul hQ).mpr hr)
  have h4 : (p * (len * Q) + r) / (len * Q) = p := by
    rw [Nat.mul_comm p (len * Q), Nat.mul_add_div (Nat.mul_pos hlen hQ),
      Nat.div_eq_of_lt hr]
    omega
  rw [sliceIx, h1, h2, h3, h4]
  have h5 : r / Q * Q + r % Q = r := by
    rw [Nat.mul_comm]
    exact Nat.div_add_mod r Q
  rw [Nat.add_mul, Nat.add_mul, ← Nat.mul_assoc]
  generalize p * N * Q = A
  generalize hB : r / Q * Q = B at h5
  generalize a * Q = C
  generalize hD : r % Q = D at h5
  omega

/-- Assembling a chain of adjacent row-segments reassembles the whole range
of rows. -/
theorem chain_join (Q : Nat) (gg : Nat → Int) :
    ∀ (bounds : List (Nat × Nat)) (a b : Nat), BoundsChain a b bounds →
    (bounds.map (fun ab => (List.range ((ab.2 - ab.1) * Q)).map
      (fun r => gg (ab.1 * Q + r)))).flatten =
    (List.range ((b - a) * Q)).map (fun r => gg (a * Q + r)) := by
  intro bounds
  induction bounds with
  | nil =>
      intro a b hc
      have : a = b := hc
      subst this
      simp
  | cons ab t ih =>
      intro a b hc
      obtain ⟨h1, h2, h3⟩ := hc
      have hyb : ab.2 ≤ b := chain_le t ab.2 b h3
      rw [List.map_cons, List.flatten_cons, ih ab.2 b h3, h1]
      have hsplit : (b - a) * Q = (ab.2 - a) * Q + (b - ab.2) * Q := by
        rw [← Nat.add_mul]
        congr 1
        omega
      rw [hsplit, List.range_add, List.map_append, List.map_map]
      congr 1
      apply List.map_congr_left
      intro r _
      simp only [Function.comp]
      congr 1
      have : a * Q + (ab.2 - a) * Q = ab.2 * Q := by
        rw [← Nat.add_mul]
        congr 1
        omega
      rw [← Nat.add_assoc, this]

/-- `concatV` over pieces whose shapes are the base shape with the
concatenation axis replaced, written out explicitly. -/
theorem concatV_blocks (dN : Nat) (s : List Nat) (hd : dN < s.length) (k : Nat) (hk : 0 < k)
    (n : Nat → Nat) (dat : Nat → List Int) :
    concatV dN ((List.range k).map (fun j => (⟨s.set dN (n j), dat j⟩ : V))) =
    ⟨s.set dN (((List.range k).map n).sum),
     ((List.range (numel (s.take dN))).map (fun p =>
       ((List.range k).map (fun j =>
         ((dat j).drop (p * (n j * numel (s.drop (dN + 1))))).take
           (n j * numel (s.drop (dN + 1))))).flatten)).flatten⟩ := by
  have hhead : (((List.range k).map (fun j => (⟨s.set dN (n j), dat j⟩ : V))).headD
      ⟨[], []⟩) = ⟨s.set dN (n 0), dat 0⟩ :=
    headD_map_range _ k hk _
  simp only [concatV, hhead]
  rw [V.mk.injEq]
  constructor
  · rw [List.map_map]
    rw [show ((List.range k).map ((fun pc => pc.shape.getD dN 0) ∘
        (fun j => (⟨s.set dN (n j), dat j⟩ : V)))) = (List.range k).map n from
      List.map_congr_left (fun j _ => getD_set_dim s dN (n j) 0 hd), List.set_set]
  · rw [take_set_eq, drop_set_eq]
    apply congrArg List.flatten
    apply List.map_congr_left
    intro p _
    apply congrArg List.flatten
    rw [List.map_map]
    apply List.map_congr_left
    intro j _
    simp only [Function.comp]
    rw [getD_set_dim s dN (n j) 0 hd]

/-- Reading one flat position of a tensor in a heap (the map underlying
`val`). -/
def readG (h : Heap) (t : Tsr) : Nat → Int := fun i => (bufOf h t).getD (t.ix i) 0

/-- Element count after replacing one dimension. -/
theorem numel_set (s : List Nat) (d v : Nat) (hd : d < s.length) :
    numel (s.set d v) = numel (s.take d) * (v * numel (s.drop (d + 1))) := by
  rw [numel_decompose (s.set d v) d (by simpa using hd), take_set_eq, drop_set_eq,
    getD_set_dim _ _ _ _ hd]

/-- Concatenating the values of adjacent `Split.mkChunk` views along the
split dimension reassembles the value of the input tensor: the chunk bounds
are the successive values of a step-monotone map `g` running from `0` to the
dimension's extent. -/
theorem concat_chunks (h : Heap) (xt0 : Tsr) (dN : Nat) (hd : dN < xt0.shape.length)
    (g : Nat → Nat) (k : Nat) (oi : Nat → Nat)
    (hmono : ∀ j, g j ≤ g (j + 1))
    (hg0 : g 0 = 0) (hgk : g k = xt0.shape.getD dN 0)
    (hk : 0 < k) :
    concatV dN (((List.range k).map (fun j =>
      Split.mkChunk xt0 dN (g j) (g (j + 1)) (oi j))).map
      (fun o => (⟨o.shape, val h o⟩ : V))) = ⟨xt0.shape, val h xt0⟩ := by
  rw [List.map_map]
  refine Eq.trans (concatV_blocks dN xt0.shape hd k hk (fun j => g (j + 1) - g j)
    (fun j => val h (Split.mkChunk xt0 dN (g j) (g (j + 1)) (oi j)))) ?_
  rw [V.mk.injEq]
  constructor
  · rw [telescope_sum g hmono k, hg0, hgk, Nat.sub_zero,
      set_getD_self xt0.shape dN 0 hd]
  · have hblock : ∀ p, p < numel (xt0.shape.take dN) →
        ((List.range k).map (fun j =>
          ((val h (Split.mkChunk xt0 dN (g j) (g (j + 1)) (oi j))).drop
            (p * ((g (j + 1) - g j) * numel (xt0.shape.drop (dN + 1))))).take
            ((g (j + 1) - g j) * numel (xt0.shape.drop (dN + 1))))).flatten =
        (List.range (xt0.shape.getD dN 0 * numel (xt0.shape.drop (dN + 1)))).map
          (fun r => readG h xt0
            (p * (xt0.shape.getD dN 0 * numel (xt0.shape.drop (dN + 1))) + r)) := by
      intro p hp
      have hstep : ∀ j,
          ((val h (Split.mkChunk xt0 dN (g j) (g (j + 1)) (oi j))).drop
            (p * ((g (j + 1) - g j) * numel (xt0.shape.drop (dN + 1))))).take
            ((g (j + 1) - g j) * numel (xt0.shape.drop (dN + 1))) =
          (List.range ((g (j + 1) - g j) * numel (xt0.shape.drop (dN + 1)))).map
            (fun r => readG h xt0
              (p * (xt0.shape.getD dN 0 * numel (xt0.shape.drop (dN + 1))) +
                (g j * numel (xt0.shape.drop (dN + 1)) + r))) := by
        intro j
        have hval : val h (Split.mkChunk xt0 dN (g j) (g (j + 1)) (oi j)) =
            ((List.range (numel (xt0.shape.take dN))).map (fun q =>
              (List.range ((g (j + 1) - g j) * numel (xt0.shape.drop (dN + 1)))).map
                (fun r => readG h xt0
                  (sliceIx (xt0.shape.getD dN 0) (numel (xt0.shape.drop (dN + 1)))
                    (g j) (g (j + 1) - g j)
                    (q * ((g (j + 1) - g j) * numel (xt0.shape.drop (dN + 1))) + r))))).flatten := by
          rw [val, show numel (Split.mkChunk xt0 dN (g j) (g (j + 1)) (oi j)).shape =
            numel (xt0.shape.take dN) *
              ((g (j + 1) - g j) * numel (xt0.shape.drop (dN + 1))) from
            numel_set xt0.shape dN _ hd]
          exact range_mul_join _ _ _
        rw [hval, join_uniform_extract
          ((g (j + 1) - g j) * numel (xt0.shape.drop (dN + 1))) _ p
          (by
            intro l hl
            obtain ⟨x, hx, rfl⟩ := List.mem_map.mp hl
            simp)
          (by simpa using hp)]
        rw [List.getD_eq_getElem _ _ (by simpa using hp), List.getElem_map,
          List.getElem_range]
        apply List.map_congr_left
        intro r hr
        rw [List.mem_range] at hr
        rw [sliceIx_eval _ _ (g j) (g (j + 1) - g j) p r hr]
      rw [List.map_congr_left (fun j _ => hstep j)]
      have hchain : BoundsChain 0 (xt0.shape.getD dN 0)
          ((List.range k).map (fun j => (g j, g (j + 1)))) := by
        have := chain_ofG g hmono k
        rwa [hg0, hgk] at this
      have hcj := chain_join (numel (xt0.shape.drop (dN + 1)))
        (fun r => readG h xt0
          (p * (xt0.shape.getD dN 0 * numel (xt0.shape.drop (dN + 1))) + r)) _ 0
        (xt0.shape.getD dN 0) hchain
      rw [List.map_map] at hcj
      simp only [Nat.sub_zero, Nat.zero_mul, Nat.zero_add] at hcj
      exact hcj
    rw [List.map_congr_left (fun p hp => hblock p (by simpa using hp))]
    rw [← range_mul_join (readG h xt0) (numel (xt0.shape.take dN))
      (xt0.shape.getD dN 0 * numel (xt0.shape.drop (dN + 1)))]
    rw [val, ← numel_decompose xt0.shape dN hd]
    rfl

/-- C5: for every tensor, every in-range dimension of positive extent, and
every valid parameterization (a positive `split_size`, or chunk lengths
summing to the dimension's extent), `Split.forward` succeeds; every output is
a view of the input's storage tagged with `output_index` equal to its chunk
position, the recorded `output_shapes` are the outputs' shapes, and
concatenating the outputs' values back along `dim` reproduces the input
tensor (shape and contents) exactly. -/
theorem Split_forward_concat_inverse (h : Heap) (xt0 : Tsr) (dim : Int) (arg : SplitArg)
    (hdim : -(xt0.shape.length : Int) ≤ dim ∧ dim < (xt0.shape.length : Int))
    (hpos : 0 < pyGet xt0.shape dim)
    (harg : match arg with
      | .size s => 0 < s
      | .sections ns => ns.sum = pyGet xt0.shape dim) :
    ∃ outs shapes, Split.forward xt0 dim arg = .ok (outs, shapes) ∧
      shapes = outs.map (fun o => o.shape) ∧
      concatV (normDim xt0.shape.length dim)
        (outs.map (fun o => (⟨o.shape, val h o⟩ : V))) = ⟨xt0.shape, val h xt0⟩ ∧
      ∀ j, ∀ hj : j < outs.length,
        (outs.get ⟨j, hj⟩).storage = xt0.storage ∧ (outs.get ⟨j, hj⟩).outIdx = j := by
  have hdN : normDim xt0.shape.length dim < xt0.shape.length := by
    rw [normDim]
    split <;> omega
  have hMeq : pyGet xt0.shape dim = xt0.shape.getD (normDim xt0.shape.length dim) 0 := rfl
  cases arg with
  | size s =>
      have hs : 0 < s := harg
      refine ⟨((List.range ((pyGet xt0.shape dim + s - 1) / s)).map (fun j => j * s)).map
        (fun st => Split.mkChunk xt0 (normDim xt0.shape.length dim) st
          (min (st + s) (pyGet xt0.shape dim)) (st / s)), _, ?_, rfl, ?_, ?_⟩
      · show Split.forward xt0 dim (.size s) = _
        simp only [Split.forward]
        rw [if_neg (by omega)]
      · have hO : ((List.range ((pyGet xt0.shape dim + s - 1) / s)).map (fun j => j * s)).map
            (fun st => Split.mkChunk xt0 (normDim xt0.shape.length dim) st
              (min (st + s) (pyGet xt0.shape dim)) (st / s)) =
            (List.range ((pyGet xt0.shape dim + s - 1) / s)).map (fun j =>
              Split.mkChunk xt0 (normDim xt0.shape.length dim)
                (min (j * s) (pyGet xt0.shape dim))
                (min ((j + 1) * s) (pyGet xt0.shape dim)) j) := by
          rw [List.map_map]
          apply List.map_congr_left
          intro j hj
          rw [List.mem_range] at hj
          simp only [Function.comp]
          have hjs : j * s ≤ pyGet xt0.shape dim := by
            have hk1 : j + 1 ≤ (pyGet xt0.shape dim + s - 1) / s := hj
            rw [Nat.le_div_iff_mul_le hs, Nat.succ_mul] at hk1
            generalize j * s = A at hk1 ⊢
            omega
          rw [Nat.mul_div_cancel j hs,
            show min (j * s + s) (pyGet xt0.shape dim) =
              min ((j + 1) * s) (pyGet xt0.shape dim) from by rw [Nat.succ_mul]]
          conv_lhs => rw [show j * s = min (j * s) (pyGet xt0.shape dim) from
            (Nat.min_eq_left hjs).symm]
        rw [hO, hMeq]
        exact concat_chunks h xt0 (normDim xt0.shape.length dim) hdN
          (fun j => min (j * s) (xt0.shape.getD (normDim xt0.shape.length dim) 0))
          ((xt0.shape.getD (normDim xt0.shape.length dim) 0 + s - 1) / s)
          (fun j => j)
          (by
            intro j
            dsimp only
            rw [Nat.succ_mul]
            generalize j * s = A
            omega)
          (by simp)
          (by
            dsimp only
            have h1 : (xt0.shape.getD (normDim xt0.shape.length dim) 0 + s - 1) / s <
                (xt0.shape.getD (normDim xt0.shape.length dim) 0 + s - 1) / s + 1 :=
              Nat.lt_succ_self _
            rw [Nat.div_lt_iff_lt_mul hs, Nat.succ_mul] at h1
            rw [hMeq] at hpos
            generalize ((xt0.shape.getD (normDim xt0.shape.length dim) 0 + s - 1) / s) * s
              = A at h1 ⊢
            omega)
          (by
            show 1 ≤ _
            rw [Nat.le_div_iff_mul_le hs]
            rw [hMeq] at hpos
            omega)
      · intro j hj
        rw [List.get_eq_getElem, List.getElem_map, List.getElem_map, List.getElem_range]
        refine ⟨rfl, ?_⟩
        show j * s / s = j
        exact Nat.mul_div_cancel j hs
  | sections ns =>
      have hsum : ns.sum = pyGet xt0.shape dim := harg
      have hk0 : 0 < ns.length := by
        rcases ns with - | ⟨a, t⟩
        · rw [List.sum_nil] at hsum
          omega
        · simp
      refine ⟨(List.range ns.length).map (fun j =>
        Split.mkChunk xt0 (normDim xt0.shape.length dim)
          ((ns.take (j + 1)).sum - ns.getD j 0) ((ns.take (j + 1)).sum) j), _, ?_, rfl,
        ?_, ?_⟩
      · show Split.forward xt0 dim (.sections ns) = _
        simp only [Split.forward]
        rw [if_neg (fun hne => hne hsum)]
      · have hO : (List.range ns.length).map (fun j =>
            Split.mkChunk xt0 (normDim xt0.shape.length dim)
              ((ns.take (j + 1)).sum - ns.getD j 0) ((ns.take (j + 1)).sum) j) =
            (List.range ns.length).map (fun j =>
              Split.mkChunk xt0 (normDim xt0.shape.length dim)
                ((ns.take j).sum) ((ns.take (j + 1)).sum) j) := by
          apply List.map_congr_left
          intro j hj
          rw [List.mem_range] at hj
          rw [show (ns.take (j + 1)).sum - ns.getD j 0 = (ns.take j).sum from by
            rw [List.sum_take_succ ns j hj, List.getD_eq_getElem ns 0 hj]
            omega]
        rw [hO]
        exact concat_chunks h xt0 (normDim xt0.shape.length dim) hdN
          (fun j => (ns.take j).sum) ns.length (fun j => j)
          (by
            intro j
            dsimp only
            by_cases hj : j < ns.length
            · rw [List.sum_take_succ ns j hj]
              omega
            · rw [List.take_of_length_le (by omega), List.take_of_length_le (by omega)])
          rfl
          (by
            dsimp only
            rw [List.take_length, hsum, hMeq])
          hk0
      · intro j hj
        rw [List.get_eq_getElem, List.getElem_map, List.getElem_range]
        exact ⟨rfl, rfl⟩

/-- Witness for C5: splitting `G = [1, 2]` along dimension 0 into sections
`[1, 1]` succeeds, and concatenating the chunk values reproduces the input. -/
theorem Split_forward_concat_inverse_witness :
    ∃ outs shapes, Split.forward g2 0 (.sections [1, 1]) = .ok (outs, shapes) ∧
      shapes = outs.map (fun o => o.shape) ∧
      concatV (normDim g2.shape.length 0)
        (outs.map (fun o => (⟨o.shape, val [[1, 2]] o⟩ : V))) =
        ⟨g2.shape, val [[1, 2]] g2⟩ ∧
      ∀ j, ∀ hj : j < outs.length,
        (outs.get ⟨j, hj⟩).storage = g2.storage ∧ (outs.get ⟨j, hj⟩).outIdx = j :=
  Split_forward_concat_inverse [[1, 2]] g2 0 (.sections [1, 1])
    ⟨by decide, by decide⟩ (by decide) rfl
